import Mathlib

/-!
# Verification of the sleep-data sync pipeline (`update_garmin_sleep.py`)

Shallow embedding of the incremental sync / ETL pipeline:

* dates are modelled as natural numbers (days since an arbitrary epoch;
  day 0 is taken to be 1970-01-01, a Thursday, so Python's
  `date.weekday()` convention Monday = 0 gives `weekday d = (d + 3) % 7`);
* a clock time is a pair (hour, minute);
* durations are naturals (seconds), nullable fields are `Option`;
* the Garmin provider (an external network collaborator) is modelled as a
  function `fetch : ℕ → Option SleepFields` giving, for a previous-day
  date, the normalized payload fields when the provider has a record for
  that night, and `none` when the date is absent from the response;
* pandas dataframes are lists of records; `sort_values` is modelled by
  `List.insertionSort` (with unique sort keys the result is the same for
  any comparison sort); a raised Python exception is modelled by `Except`
  / `Option` error values.
-/

/-! ## Data model -/

/-- One row of the Garmin nights dataframe (columns of `converter`):
`Prev_Day`, `Bed_Time`, `Wake_Time`, `Awake_Dur`, `Light_Dur`, `Deep_Dur`,
`Total_Dur`, `Nap_Dur`, `Window_Conf`.  Timestamps are reduced to the
local (hour, minute) pair, the only part the pipeline's logic reads. -/
structure Night where
  Prev_Day : ℕ
  Bed_Time : Option (ℕ × ℕ)
  Wake_Time : Option (ℕ × ℕ)
  Awake_Dur : Option ℕ
  Light_Dur : Option ℕ
  Deep_Dur : Option ℕ
  Total_Dur : Option ℕ
  Nap_Dur : Option ℕ
  Window_Conf : Option Bool
  deriving DecidableEq, Repr

/-- The per-night fields of one entry of the provider's JSON payload,
after `converter`'s field-wise normalization, minus the previous-day
date (which keys the record). -/
structure SleepFields where
  bed : Option (ℕ × ℕ)
  wake : Option (ℕ × ℕ)
  awake : Option ℕ
  light : Option ℕ
  deep : Option ℕ
  total : Option ℕ
  nap : Option ℕ
  conf : Option Bool
  deriving DecidableEq, Repr

/-- The night built by `converter` from a payload entry whose
previous-day date is `d`. -/
def nightOf (d : ℕ) (f : SleepFields) : Night :=
  ⟨d, f.bed, f.wake, f.awake, f.light, f.deep, f.total, f.nap, f.conf⟩

/-- The all-null placeholder row `[d] + new_missing_row` inserted by
`step3` for a requested date absent from the provider response
(`new_missing_row = [pd.NaT, ..., np.NAN]`). -/
def nullNight (d : ℕ) : Night :=
  ⟨d, none, none, none, none, none, none, none, none⟩

/-- The `Prev_Day` column of a nights dataframe. -/
def datesOf (df : List Night) : List ℕ :=
  df.map (fun r => r.Prev_Day)

/-- The dataframe has pairwise-distinct previous-day dates. -/
def uniqueDates (df : List Night) : Prop :=
  (datesOf df).Nodup

instance : DecidablePred uniqueDates := fun df =>
  inferInstanceAs (Decidable (datesOf df).Nodup)

/-- Comparison used by `sort_values("Prev_Day")`. -/
def byDate (a b : Night) : Prop := a.Prev_Day ≤ b.Prev_Day

instance : DecidableRel byDate := fun a b =>
  inferInstanceAs (Decidable (a.Prev_Day ≤ b.Prev_Day))

instance : IsTotal Night byDate := ⟨fun a b => Nat.le_total a.Prev_Day b.Prev_Day⟩

instance : IsTrans Night byDate := ⟨fun _ _ _ h h' => Nat.le_trans h h'⟩

/-- `df` is sorted ascending by previous-day date. -/
def sortedByDate (df : List Night) : Prop :=
  List.Sorted byDate df

/-- `daterange(date1, date2)`: the list of all dates in `[date1, date2]`
(`[date1]` alone when `date2 < date1`, matching the empty Python
`range`). -/
def daterange (date1 date2 : ℕ) : List ℕ :=
  (List.range (date2 - date1 + 1)).map (fun n => date1 + n)

/-! ## Time-of-day normalization (claim C4)

`step3` lines 363-366 and `step4` lines 549-552.  A decimal time of day
is a rational number. -/

/-- Decimal hours of a clock time: `hour + minute/60`. -/
def toD (h m : ℕ) : ℚ := (h : ℚ) + (m : ℚ) / 60

/-- The PM wrap `x -= 24*(x > 12)` applied to a decimal time of day. -/
def normPM (t : ℚ) : ℚ := t - 24 * (if 12 < t then 1 else 0)

/-- `garmin_df["Bed_ToD"]`: decimal hours of the bed time, then the PM
wrap (lines 363-364; identically lines 389-391 for the legacy data). -/
def bed_ToD (h m : ℕ) : ℚ := normPM (toD h m)

/-- `garmin_df["Wake_ToD"]`: decimal hours of the wake time.  No PM wrap
is applied (line 365; identically lines 392-393 for the legacy data). -/
def wake_ToD (h m : ℕ) : ℚ := toD h m

/-- `sunrise_tod` of `step4` (lines 549-550): decimal hours, PM wrap. -/
def sunrise_ToD (h m : ℕ) : ℚ := normPM (toD h m)

/-- `sunset_tod` of `step4` (lines 551-552): decimal hours, PM wrap. -/
def sunset_ToD (h m : ℕ) : ℚ := normPM (toD h m)

/-! ## Workday classification (claim C5)

`step3` lines 421-471.  Day 0 of the date encoding is 1970-01-01, a
Thursday, so Python's `date.weekday()` (Monday = 0) is `(d + 3) % 7`. -/

/-- `Prev_Day.dt.weekday`, Monday = 0 .. Sunday = 6. -/
def weekday (d : ℕ) : ℕ := (d + 3) % 7

/-- The `day_map` dictionary of `step3`. -/
def day_map (w : ℕ) : String :=
  if w = 0 then "Monday"
  else if w = 1 then "Tuesday"
  else if w = 2 then "Wednesday"
  else if w = 3 then "Thursday"
  else if w = 4 then "Friday"
  else if w = 5 then "Saturday"
  else "Sunday"

/-- `is_weekend_bool = all_descr_df["Day"].isin(["Friday", "Saturday"])`. -/
def is_weekend_bool (d : ℕ) : Bool :=
  decide (day_map (weekday d) ∈ (["Friday", "Saturday"] : List String))

/-- The `Is_Holiday` column after the weekend override
(`all_descr_df.loc[is_weekend_bool, "Is_Holiday"] = False`). -/
def Is_Holiday (holidays : List ℕ) (d : ℕ) : Bool :=
  if is_weekend_bool d then false else decide (d ∈ holidays)

/-- The `vacay` date list of `step3`: Christmas eves
(`christmas_holidays - 1 day`), the six days after each Christmas
holiday, and the layoff period `[layoffStart, endDate]`
(`pd.date_range(start_dt_date, end_dt_date)`). -/
def vacayList (christmasHolidays : List ℕ) (layoffStart endDate : ℕ) : List ℕ :=
  christmasHolidays.map (fun c => c - 1)
    ++ ((List.range 6).map (fun n => christmasHolidays.map (fun c => c + (n + 1)))).flatten
    ++ daterange layoffStart endDate

/-- The `Is_Workday` column:
`~ (Is_Holiday | Prev_Day.isin(vacay))`, then the weekend override
`all_descr_df.loc[is_weekend_bool, "Is_Workday"] = False`. -/
def Is_Workday (holidays vacay : List ℕ) (d : ℕ) : Bool :=
  if is_weekend_bool d then false
  else ! (Is_Holiday holidays d || decide (d ∈ vacay))

/-! ## Feature Deriver (claim C2)

`step3` lines 359-491: the description and event tables are fully
recomputed from the trimmed archive on every run.  The US-federal
holiday calendar, the `vacay` list and the Gregorian year of a day
number are calendar inputs (`holidays`, `vacay`, `yearOf`); the
reconciled legacy rows (`ms3_df`, lines 367-398) are a fixed input
read from the read-only legacy files.  The `DateTimeStr` column (a
`strftime` rendering of `DateTime`, line 486) is omitted as pure
display formatting. -/

/-- A row of `all_df` (and of `garmin_df`, lines 359-365): the archive
row minus `Nap_Dur`/`Window_Conf`, plus the decimal times of day
(`Bed_ToD` with the PM wrap, `Wake_ToD` raw; null times give null
time-of-day values). -/
structure GarminRow where
  Prev_Day : ℕ
  Bed_Time : Option (ℕ × ℕ)
  Wake_Time : Option (ℕ × ℕ)
  Awake_Dur : Option ℕ
  Light_Dur : Option ℕ
  Deep_Dur : Option ℕ
  Total_Dur : Option ℕ
  Bed_ToD : Option ℚ
  Wake_ToD : Option ℚ
  deriving DecidableEq, Repr

/-- Lines 360-365: `garmin_df = nights_df.drop(["Nap_Dur", "Window_Conf"])`
with the two time-of-day columns added. -/
def garminRowOf (r : Night) : GarminRow :=
  ⟨r.Prev_Day, r.Bed_Time, r.Wake_Time, r.Awake_Dur, r.Light_Dur, r.Deep_Dur, r.Total_Dur,
    r.Bed_Time.map (fun t => normPM (toD t.1 t.2)),
    r.Wake_Time.map (fun t => toD t.1 t.2)⟩

/-- The all-null gap row appended for a missing day (lines 407-409). -/
def gapRow (d : ℕ) : GarminRow :=
  ⟨d, none, none, none, none, none, none, none, none⟩

/-- `complete_dates_ls = daterange(min(all_df["Prev_Day"]), max(...))`
(line 405); empty input gives the empty list (the source would raise on
`min` of an empty column). -/
def completeDatesOf (rows : List GarminRow) : List ℕ :=
  match rows.map (fun r => r.Prev_Day) with
  | [] => []
  | d :: ds => daterange (ds.foldl Nat.min d) (ds.foldl Nat.max d)

/-- Sort key of `all_df.sort_values("Prev_Day")` (line 410). -/
def byDateG (a b : GarminRow) : Prop := a.Prev_Day ≤ b.Prev_Day

instance : DecidableRel byDateG := fun a b =>
  inferInstanceAs (Decidable (a.Prev_Day ≤ b.Prev_Day))

/-- Lines 400-410: concatenate the archive-derived rows with the
reconciled legacy rows, append a gap row for every day of the spanned
range not already present, and sort by previous-day date. -/
def allDf (garmin_df ms3_df : List GarminRow) : List GarminRow :=
  let all := garmin_df ++ ms3_df
  let missing := (completeDatesOf all).filter
    (fun d => !(decide (d ∈ all.map (fun r => r.Prev_Day))))
  List.insertionSort byDateG (all ++ missing.map gapRow)

/-- `all_df["Sleep_Session_ID"] = list(range(len(all_df)))` (line 415). -/
def withSessionIDs (rows : List GarminRow) : List (ℕ × GarminRow) :=
  rows.mapIdx (fun i r => (i, r))

/-- A row of `all_descr_df` (lines 416-471): session ID, date, duration
breakdown, year, day-of-week name, holiday and workday flags. -/
structure DescrRow where
  Sleep_Session_ID : ℕ
  Prev_Day : ℕ
  Awake_Dur : Option ℕ
  Light_Dur : Option ℕ
  Deep_Dur : Option ℕ
  Total_Dur : Option ℕ
  Year : ℕ
  Day : String
  Is_Holiday : Bool
  Is_Workday : Bool
  deriving DecidableEq, Repr

/-- A row of `all_event_df` (lines 473-487): session ID, date, event
kind, timestamp and decimal time of day. -/
structure EventRow where
  Sleep_Session_ID : ℕ
  Prev_Day : ℕ
  Event : String
  DateTime : Option (ℕ × ℕ)
  ToD : Option ℚ
  deriving DecidableEq, Repr

/-- The description row of one session (lines 416-471), with the
calendar features computed as in claim C5. -/
def descrRowOf (holidays vacay : List ℕ) (yearOf : ℕ → ℕ) (ir : ℕ × GarminRow) : DescrRow :=
  ⟨ir.1, ir.2.Prev_Day, ir.2.Awake_Dur, ir.2.Light_Dur, ir.2.Deep_Dur, ir.2.Total_Dur,
    yearOf ir.2.Prev_Day, day_map (weekday ir.2.Prev_Day),
    Is_Holiday holidays ir.2.Prev_Day, Is_Workday holidays vacay ir.2.Prev_Day⟩

/-- The melt of one session into its two event rows (lines 473-485):
`Bed_Time ↦ "Fell Asleep"`, `Wake_Time ↦ "Woke Up"`, sorted by
`[Sleep_Session_ID, Event]` — alphabetically "Fell Asleep" precedes
"Woke Up", so each session contributes its fell-asleep row first. -/
def eventRowsOf (ir : ℕ × GarminRow) : List EventRow :=
  [⟨ir.1, ir.2.Prev_Day, "Fell Asleep", ir.2.Bed_Time, ir.2.Bed_ToD⟩,
   ⟨ir.1, ir.2.Prev_Day, "Woke Up", ir.2.Wake_Time, ir.2.Wake_ToD⟩]

/-- The two derived tables written by `step3` (lines 490-491), as a pure
function of the trimmed archive and the fixed calendar/legacy inputs. -/
def deriveTables (holidays vacay : List ℕ) (yearOf : ℕ → ℕ) (nights_df : List Night)
    (ms3_df : List GarminRow) : List DescrRow × List EventRow :=
  let ids := withSessionIDs (allDf (nights_df.map garminRowOf) ms3_df)
  (ids.map (descrRowOf holidays vacay yearOf), (ids.map eventRowsOf).flatten)

/-! ## Session Acquirer chunking (claim C6)

`step2` lines 278-300: requests are chunked so no request spans more
than `max_period_delta = 31` days. -/

/-- The successive `(period_start, period_end)` request windows computed
by the `while` loop of `step2`: `period_start = min(get_dates_ls)`;
`period_end = period_start + 31 days` when
`max(get_dates_ls) - period_start > 31 days - 1 day`, else
`max(get_dates_ls)`; then the date list is trimmed to the dates after
`period_end`.  The first argument is recursion fuel: each iteration
strictly shrinks the date list (its minimum never exceeds `period_end`),
so fuel equal to the list length is enough; `chunkPeriods` supplies it. -/
def chunkPeriodsF : ℕ → List ℕ → List (ℕ × ℕ)
  | _, [] => []
  | 0, _ :: _ => []
  | fuel + 1, d :: ds =>
    let s := ds.foldl Nat.min d
    let m := ds.foldl Nat.max d
    let e := if 30 < m - s then s + 31 else m
    (s, e) :: chunkPeriodsF fuel ((d :: ds).filter (fun x => decide (e < x)))

/-- The request windows issued by `step2` for the missing-date list. -/
def chunkPeriods (ds : List ℕ) : List (ℕ × ℕ) :=
  chunkPeriodsF ds.length ds

/-- The `data` list accumulated by the `step2` loop
(`data.append(download_to_json(period_start, period_end, ...))`) flattened
by `chain.from_iterable`; `provider s e` is the parsed JSON array for the
request window `[s, e]`.  Fueled like `chunkPeriodsF`. -/
def fetchChunksF (provider : ℕ → ℕ → List SleepFields) : ℕ → List ℕ → List SleepFields
  | _, [] => []
  | 0, _ :: _ => []
  | fuel + 1, d :: ds =>
    let s := ds.foldl Nat.min d
    let m := ds.foldl Nat.max d
    let e := if 30 < m - s then s + 31 else m
    provider s e ++ fetchChunksF provider fuel ((d :: ds).filter (fun x => decide (e < x)))

/-- The concatenated download results of `step2`. -/
def fetchChunks (provider : ℕ → ℕ → List SleepFields) (ds : List ℕ) : List SleepFields :=
  fetchChunksF provider ds.length ds

/-! ## Archive merge (claims C1, C2, C3, C10)

`step3` lines 338-344. -/

/-- The merge of `step3` (lines 338-344): when the archive is non-empty,
drop the new nights whose `Prev_Day` already occurs in the archive
(`new_nights_df[~new_nights_df["Prev_Day"].isin(nights_df["Prev_Day"])]`),
append the remaining new nights to the archive and sort ascending by
`Prev_Day`; when the archive is empty, just sort the new nights. -/
def mergeArchive (nights_df new_nights_df : List Night) : List Night :=
  if 0 < nights_df.length then
    List.insertionSort byDate
      (nights_df ++ new_nights_df.filter
        (fun r => !(nights_df.any (fun n => n.Prev_Day == r.Prev_Day))))
  else
    List.insertionSort byDate new_nights_df

/-- `pd.isnull(r.Total_Dur)`. -/
def nullTotal (r : Night) : Bool := r.Total_Dur.isNone

/-- The trailing-null trim loop of `step3` (lines 348-353):

```
i = 1
while pd.isnull(nights_df.Total_Dur.iloc[-i]) & (len(nights_df) >= i):
    unknown_nights_ls.append(nights_df.Prev_Day.iloc[-i])
    i += 1
```

Python's `&` evaluates both operands, so `iloc[-i]` is evaluated before
the bound check `len >= i` can stop the loop; `iloc[-i]` is in range
exactly when `1 ≤ i ≤ len`, and an out-of-range access raises
`IndexError`, modelled as `.error i` (the position `-i` of the failed
access).  Arguments: current `i`, recursion fuel (the loop advances `i`
at most `len + 1` times before exiting or raising, so `trimRun`'s budget
of `len + 1` is never exhausted; the `.error 0` fuel branch is
unreachable from `trimRun`), and the accumulator `unknown_nights_ls`. -/
def trimLoop (df : List Night) : ℕ → ℕ → List ℕ → Except ℕ (List ℕ)
  | _, 0, _ => .error 0
  | i, fuel + 1, acc =>
    if 1 ≤ i ∧ i ≤ df.length then
      if nullTotal (df.getD (df.length - i) (nullNight 0)) then
        trimLoop df (i + 1) fuel (acc ++ [(df.getD (df.length - i) (nullNight 0)).Prev_Day])
      else .ok acc
    else .error i

/-- The trim loop as entered by `step3`: `i = 1`, empty accumulator. -/
def trimRun (df : List Night) : Except ℕ (List ℕ) :=
  trimLoop df 1 (df.length + 1) []

/-- The archive after the trim:
`nights_df[~nights_df["Prev_Day"].isin(unknown_nights_ls)]`; `none` when
the loop raised `IndexError` (so `step3` aborts and nothing is
persisted). -/
def trimArchive (df : List Night) : Option (List Night) :=
  match trimRun df with
  | .ok unk => some (df.filter (fun r => !(decide (r.Prev_Day ∈ unk))))
  | .error _ => none

/-- `step0` (lines 169-198): the requested dates not yet in the archive
(`np.setdiff1d(req_dates_ls, archive_dates_ls)`; the requested range is
ascending and duplicate-free, so the set difference is the filter) when
previous results exist, the whole requested range otherwise. -/
def step0Missing (req_dates : List ℕ) (nights_df : List Night) : List ℕ :=
  if 0 < nights_df.length then
    req_dates.filter (fun d => !(decide (d ∈ datesOf nights_df)))
  else req_dates

/-- The record `step3` ends up holding for a missing date `d`: the
converter's row when the provider response contains the night keyed by
`d`, the all-null placeholder row otherwise (lines 331-336). -/
def normalizeAt (fetch : ℕ → Option SleepFields) (d : ℕ) : Night :=
  match fetch d with
  | some f => nightOf d f
  | none => nullNight d

/-- `new_nights_df` after the placeholder fill (lines 312-336): the
converter's rows for the nights present in the response, followed by the
null placeholders for the requested dates absent from it
(`np.setdiff1d(new_req_dates_ls, new_nights_df["Prev_Day"])`). -/
def newNights (fetch : ℕ → Option SleepFields) (missing : List ℕ) : List Night :=
  (missing.filterMap (fun d => (fetch d).map (nightOf d)))
    ++ (missing.filter (fun d => (fetch d).isNone)).map nullNight

/-- The merged archive of one run, before the trailing trim: the prior
archive merged with the normalized records of the missing dates. -/
def mergedOnce (req_dates : List ℕ) (fetch : ℕ → Option SleepFields)
    (nights_df : List Night) : List Night :=
  mergeArchive nights_df (newNights fetch (step0Missing req_dates nights_df))

/-- One run of the primary-archive pipeline (steps 0, 2 and 3 up to the
persistence of `garmin_results_pkl_fn`): compute the missing dates from
the on-disk archive, fetch and normalize them, merge, trim the trailing
unconfirmed nights.  `none` when the trim loop raises. -/
def runOnce (req_dates : List ℕ) (fetch : ℕ → Option SleepFields)
    (nights_df : List Night) : Option (List Night) :=
  trimArchive (mergedOnce req_dates fetch nights_df)

/-- Concrete payload fields used by witnesses: a confirmed night with an
8-hour total duration. -/
def sampleFields : SleepFields :=
  ⟨some (22, 30), some (6, 30), some 1800, some 14400, some 7200, some 28800,
    none, some true⟩

/-- Concrete provider behaviour used by witnesses: a record for date 0,
nothing for any other date. -/
def sampleFetch : ℕ → Option SleepFields :=
  fun d => if d = 0 then some sampleFields else none

/-- The maximal all-null-total suffix of the merged archive: the
"trailing unconfirmed nights" the trim removes. -/
def trailingNulls (df : List Night) : List Night :=
  (df.reverse.takeWhile nullTotal).reverse

/-- The merged archive up to (and including) its last confirmed night:
what survives the trim. -/
def confirmedPrefix (df : List Night) : List Night :=
  (df.reverse.dropWhile nullTotal).reverse

/-! ## Secondary-source reconciliation (claims C8, C9)

`step3` lines 376-398. -/

/-- A row of `ms2_df` at the point of the cross-midnight loop: column 0
is `Prev_Day`, column 1 the localized `Bed_Time`, of which the loop only
reads `.hour` (`none` models `NaT` from an ambiguous localization). -/
structure MsRow where
  Prev_Day : ℕ
  Bed_Hour : Option ℕ
  deriving DecidableEq, Repr

/-- `ms2_df.iloc[i_row, 1].hour < 12`: the recorded start time is past
midnight.  A `NaT` bed time gives `nan < 12`, which is `False`. -/
def past_midnight (r : MsRow) : Bool :=
  match r.Bed_Hour with
  | some h => decide (h < 12)
  | none => false

/-- The cross-midnight loop of `step3` (lines 379-382):
`for i_row in range(len(ms2_df)-1): if ms2_df.iloc[i_row, 1].hour < 12:
ms2_df.iloc[i_row, 0] -= datetime.timedelta(days=1)`.  Row `i` is
rewritten exactly when `i` lies in `range(len - 1)` — so the final row is
never visited — and its bed hour is before noon. -/
def adjustPrevDays (rows : List MsRow) : List MsRow :=
  rows.mapIdx (fun i r =>
    if i + 1 < rows.length then
      if past_midnight r then { r with Prev_Day := r.Prev_Day - 1 } else r
    else r)

/-- `brief_sleep_bool = ms2_df["Total_Dur"] < pd.Timedelta(4, unit="h")`
(line 394); durations in seconds; a `NaT` duration compares `False`. -/
def brief_sleep_bool (total : Option ℕ) : Bool :=
  match total with
  | some t => decide (t < 4 * 3600)
  | none => false

/-- `daytime_asleep_bool = (ms2_df["Bed_ToD"] > -3) | (ms2_df["Bed_ToD"] < 7)`
(line 395); a `NaN` time of day compares `False` on both sides. -/
def daytime_asleep_bool (bedToD : Option ℚ) : Bool :=
  match bedToD with
  | some x => decide (-3 < x) || decide (x < 7)
  | none => false

/-- `unknown_dur_bool = pd.isnull(ms2_df["Total_Dur"])` (line 396). -/
def unknown_dur_bool (total : Option ℕ) : Bool := total.isNone

/-- `nap_bool = brief_sleep_bool & daytime_asleep_bool` (line 397). -/
def nap_bool (total : Option ℕ) (bedToD : Option ℚ) : Bool :=
  brief_sleep_bool total && daytime_asleep_bool bedToD

/-- The row filter `ms3_df = ms2_df.loc[~nap_bool & ~unknown_dur_bool, :]`
(line 398): `true` when the legacy row is retained. -/
def ms3_keep (total : Option ℕ) (bedToD : Option ℚ) : Bool :=
  !nap_bool total bedToD && !unknown_dur_bool total

/-! ## Almanac Syncer (claim C7)

`step4` lines 496-561. -/

/-- A row of the solar archive `sun_df`:
`[w_date, sunrise, sunrise_tod, sunset, sunset_tod]`, clock times as
already-localized (hour, minute) pairs. -/
structure SunRow where
  Date : ℕ
  Sunrise : ℕ × ℕ
  Sunrise_ToD : ℚ
  Sunset : ℕ × ℕ
  Sunset_ToD : ℚ
  deriving DecidableEq, Repr

/-- The sunrise/sunset clock times for one date, as parsed from the
almanac response and localized to the configured timezone. -/
structure SunTimes where
  sunrise : ℕ × ℕ
  sunset : ℕ × ℕ
  deriving DecidableEq, Repr

/-- The row appended by `step4` for date `d`
(`sun_df.loc[len(sun_df)] = [w_date, sunrise, sunrise_tod, sunset,
sunset_tod]`). -/
def mkSunRow (d : ℕ) (t : SunTimes) : SunRow :=
  ⟨d, t.sunrise, sunrise_ToD t.sunrise.1 t.sunrise.2,
    t.sunset, sunset_ToD t.sunset.1 t.sunset.2⟩

/-- `new_sun_dates_ls`: the dates of the derived dataset not already in
the solar archive (`if not sun_df.Date.isin([n]).any()`), all of them
when the archive is empty. -/
def newSunDates (sun_df : List SunRow) (complete : List ℕ) : List ℕ :=
  if 0 < sun_df.length then
    complete.filter (fun n => !(sun_df.any (fun r => r.Date == n)))
  else complete

/-- The request loop of `step4`: `almanac d` is the parsed, localized
response for date `d`, `none` for a non-200 response, in which case the
source raises an exception that aborts the loop (and `step4`) before any
further request and before `sun_df.to_pickle`. -/
def step4Loop (almanac : ℕ → Option SunTimes) (sun_df : List SunRow) :
    List ℕ → Option (List SunRow)
  | [] => some sun_df
  | d :: rest =>
    match almanac d with
    | none => none
    | some t => step4Loop almanac (sun_df ++ [mkSunRow d t]) rest

/-- The dates `step4` actually issues a request for: a failing date is
requested, the dates after it are not. -/
def step4Requested (almanac : ℕ → Option SunTimes) : List ℕ → List ℕ
  | [] => []
  | d :: rest =>
    match almanac d with
    | none => [d]
    | some _ => d :: step4Requested almanac rest

/-- The solar archive on durable storage after `step4`: the loop's
result when every request succeeded (`sun_df.to_pickle` runs at stage
end), the unchanged prior contents when the stage aborted. -/
def step4Disk (almanac : ℕ → Option SunTimes) (oldDisk : List SunRow)
    (complete : List ℕ) : List SunRow :=
  match step4Loop almanac oldDisk (newSunDates oldDisk complete) with
  | some df => df
  | none => oldDisk

/-! ## Theorems -/

/-! ### Claim C4 -/

/-- C4: the claim asserts that every stored time-of-day column, the wake
column `Wake_ToD` included, equals `hour + minute/60` minus 24 when that
quantity exceeds 12, and hence lies in `(-12, 12]`.  Counterexample: a
wake time of 13:00 is stored as `13`, which exceeds 12 and differs from
`13 - 24`: the source never applies the PM wrap to `Wake_ToD`. -/
theorem c4_counterexample :
    wake_ToD 13 0 = 13 ∧ ¬ (wake_ToD 13 0 ≤ 12) ∧ wake_ToD 13 0 ≠ toD 13 0 - 24 := by
  refine ⟨by norm_num [wake_ToD, toD], by norm_num [wake_ToD, toD], by norm_num [wake_ToD, toD]⟩

/-- C4 (amended): for every clock time (hour < 24, minute < 60) the PM
wrap stores `hour + minute/60` when it is at most 12 and that quantity
minus 24 otherwise, so the stored value lies in `(-12, 12]`; this
normalization is applied to `Bed_ToD`, `Sunrise_ToD` and `Sunset_ToD`,
but `Wake_ToD` is stored as the raw `hour + minute/60`, which lies in
`[0, 24)`. -/
theorem c4_tod_normalization (h m : ℕ) (hh : h < 24) (hm : m < 60) :
    (normPM (toD h m) = if toD h m ≤ 12 then toD h m else toD h m - 24) ∧
    (-12 < normPM (toD h m) ∧ normPM (toD h m) ≤ 12) ∧
    bed_ToD h m = normPM (toD h m) ∧
    sunrise_ToD h m = normPM (toD h m) ∧
    sunset_ToD h m = normPM (toD h m) ∧
    wake_ToD h m = toD h m ∧ 0 ≤ wake_ToD h m ∧ wake_ToD h m < 24 := by
  have ht0 : (0 : ℚ) ≤ toD h m := by
    unfold toD; positivity
  have ht24 : toD h m < 24 := by
    have hh' : (h : ℚ) ≤ 23 := by exact_mod_cast Nat.lt_succ_iff.mp hh
    have hm' : (m : ℚ) < 60 := by exact_mod_cast hm
    have : (m : ℚ) / 60 < 1 := by
      rw [div_lt_one (by norm_num)]; exact hm'
    unfold toD; linarith
  refine ⟨?_, ?_, rfl, rfl, rfl, rfl, ht0, ht24⟩
  · unfold normPM
    rcases le_or_lt (toD h m) 12 with hle | hgt
    · rw [if_neg (not_lt.mpr hle), if_pos hle]; ring
    · rw [if_pos hgt, if_neg (not_le.mpr hgt)]; ring
  · unfold normPM
    rcases le_or_lt (toD h m) 12 with hle | hgt
    · rw [if_neg (not_lt.mpr hle)]
      constructor <;> linarith
    · rw [if_pos hgt]
      constructor <;> linarith

/-- Witness for `c4_tod_normalization` at the clock time 22:30. -/
theorem c4_tod_normalization_witness :
    (normPM (toD 22 30) = if toD 22 30 ≤ 12 then toD 22 30 else toD 22 30 - 24) ∧
    (-12 < normPM (toD 22 30) ∧ normPM (toD 22 30) ≤ 12) ∧
    bed_ToD 22 30 = normPM (toD 22 30) ∧
    sunrise_ToD 22 30 = normPM (toD 22 30) ∧
    sunset_ToD 22 30 = normPM (toD 22 30) ∧
    wake_ToD 22 30 = toD 22 30 ∧ 0 ≤ wake_ToD 22 30 ∧ wake_ToD 22 30 < 24 :=
  c4_tod_normalization 22 30 (by norm_num) (by norm_num)

/-! ### Claim C5 -/

/-- C5: the claim asserts every row whose previous-day date falls on a
Saturday or a Sunday has `Is_Workday = False`.  Counterexample: day 3
(1970-01-04) is a Sunday, yet with no holiday and no vacation window
covering it the code marks it a workday: the weekend test of the source
is `Day.isin(["Friday", "Saturday"])`, which does not contain Sunday. -/
theorem c5_counterexample :
    weekday 3 = 6 ∧ day_map (weekday 3) = "Sunday" ∧ Is_Workday [] [] 3 = true := by
  refine ⟨by decide, by decide, by decide⟩

/-- C5 (amended): a row whose previous-day date falls on a **Friday or a
Saturday** has `Is_Workday = False` even when that date is a holiday
(the code treats the night by the day it starts, so Friday/Saturday
nights are the weekend ones); a Sunday previous-day is not covered by
the weekend test.  Every date in the `vacay` list — in particular every
date of the hard-coded layoff window `[layoffStart, endDate]`, every
Christmas eve and each of the six days after a Christmas holiday — has
`Is_Workday = False`. -/
theorem c5_workday_classification (holidays christmas : List ℕ) (ls ed d : ℕ) :
    (weekday d = 4 ∨ weekday d = 5 → Is_Workday holidays (vacayList christmas ls ed) d = false) ∧
    (d ∈ vacayList christmas ls ed → Is_Workday holidays (vacayList christmas ls ed) d = false) ∧
    (ls ≤ d → d ≤ ed → d ∈ vacayList christmas ls ed) ∧
    (∀ c ∈ christmas, (d = c - 1 ∨ ∃ n, n < 6 ∧ d = c + (n + 1)) →
      d ∈ vacayList christmas ls ed) := by
  refine ⟨?_, ?_, ?_, ?_⟩
  · intro hw
    have hwk : is_weekend_bool d = true := by
      rcases hw with hw | hw <;> simp [is_weekend_bool, day_map, hw]
    simp [Is_Workday, hwk]
  · intro hv
    by_cases hwk : is_weekend_bool d = true
    · simp [Is_Workday, hwk]
    · simp only [Bool.not_eq_true] at hwk
      simp [Is_Workday, hwk, hv]
  · intro h1 h2
    have : d ∈ daterange ls ed := by
      unfold daterange
      refine List.mem_map.mpr ⟨d - ls, List.mem_range.mpr (by omega), by omega⟩
    simp [vacayList, this]
  · intro c hc hd
    unfold vacayList
    rcases hd with hd | ⟨n, hn, hd⟩
    · exact List.mem_append.mpr (Or.inl (List.mem_append.mpr
        (Or.inl (List.mem_map.mpr ⟨c, hc, hd.symm⟩))))
    · refine List.mem_append.mpr (Or.inl (List.mem_append.mpr (Or.inr ?_)))
      refine List.mem_flatten.mpr ⟨christmas.map (fun cc => cc + (n + 1)), ?_, ?_⟩
      · exact List.mem_map.mpr ⟨n, List.mem_range.mpr hn, rfl⟩
      · exact List.mem_map.mpr ⟨c, hc, hd.symm⟩

/-- Witness for `c5_workday_classification`: with a Christmas holiday on
day 100 and layoff window `[50, 60]`, day 55 is in the vacation list and
is not a workday, and day 101 (the day after Christmas) is in the
vacation list. -/
theorem c5_workday_classification_witness :
    Is_Workday [] (vacayList [100] 50 60) 55 = false ∧
    55 ∈ vacayList [100] 50 60 ∧ 101 ∈ vacayList [100] 50 60 :=
  ⟨(c5_workday_classification [] [100] 50 60 55).2.1
      ((c5_workday_classification [] [100] 50 60 55).2.2.1 (by norm_num) (by norm_num)),
    (c5_workday_classification [] [100] 50 60 55).2.2.1 (by norm_num) (by norm_num),
    (c5_workday_classification [] [100] 50 60 101).2.2.2 100 (by norm_num)
      (Or.inr ⟨0, by norm_num, by norm_num⟩)⟩

/-! ### Claim C6 -/

theorem foldlMin_le_init (l : List ℕ) (d : ℕ) : l.foldl Nat.min d ≤ d := by
  induction l generalizing d with
  | nil => simp
  | cons x xs ih =>
    simp only [List.foldl_cons]
    exact le_trans (ih (Nat.min d x)) (Nat.min_le_left d x)

theorem foldlMin_mem (l : List ℕ) (d : ℕ) : l.foldl Nat.min d ∈ d :: l := by
  induction l generalizing d with
  | nil => simp
  | cons x xs ih =>
    simp only [List.foldl_cons]
    have h := ih (Nat.min d x)
    rw [List.mem_cons] at h
    rw [List.mem_cons]
    rcases h with h | h
    · by_cases hdx : d ≤ x
      · left
        have hx : Nat.min d x = d := min_eq_left hdx
        rw [h, hx]
      · right
        have hx : Nat.min d x = x := min_eq_right (Nat.le_of_not_le hdx)
        rw [h, hx]
        exact List.mem_cons_self x xs
    · right; exact List.mem_cons_of_mem x h

theorem foldlMin_le_mem (l : List ℕ) (d : ℕ) : ∀ x ∈ l, l.foldl Nat.min d ≤ x := by
  induction l generalizing d with
  | nil => simp
  | cons y ys ih =>
    intro x hx
    simp only [List.foldl_cons]
    rw [List.mem_cons] at hx
    rcases hx with rfl | h
    · exact le_trans (foldlMin_le_init ys (Nat.min d x)) (Nat.min_le_right d x)
    · exact ih (Nat.min d y) x h

theorem foldlMin_le (l : List ℕ) (d : ℕ) : ∀ x ∈ d :: l, l.foldl Nat.min d ≤ x := by
  intro x hx
  rw [List.mem_cons] at hx
  rcases hx with rfl | h
  · exact foldlMin_le_init l x
  · exact foldlMin_le_mem l d x h

theorem foldlMax_init_le (l : List ℕ) (d : ℕ) : d ≤ l.foldl Nat.max d := by
  induction l generalizing d with
  | nil => simp
  | cons x xs ih =>
    simp only [List.foldl_cons]
    exact le_trans (Nat.le_max_left d x) (ih (Nat.max d x))

theorem filter_length_lt_of_mem {α : Type} {l : List α} {p : α → Bool} {a : α}
    (ha : a ∈ l) (hpa : p a = false) : (l.filter p).length < l.length := by
  rcases Nat.lt_or_ge (l.filter p).length l.length with h | h
  · exact h
  · exfalso
    have heq : l.filter p = l := (List.filter_sublist l).eq_of_length_le h
    have := List.mem_filter.mp (heq ▸ ha)
    rw [hpa] at this
    exact Bool.false_ne_true this.2

theorem chunk_s_le_e (d : ℕ) (ds : List ℕ) :
    ds.foldl Nat.min d ≤
      (if 30 < ds.foldl Nat.max d - ds.foldl Nat.min d then ds.foldl Nat.min d + 31
       else ds.foldl Nat.max d) := by
  have h1 := foldlMin_le_init ds d
  have h2 := foldlMax_init_le ds d
  split <;> omega

theorem chunk_filter_fuel (d : ℕ) (ds : List ℕ) (fuel : ℕ)
    (hl : (d :: ds).length ≤ fuel + 1) (e : ℕ) (he : ds.foldl Nat.min d ≤ e) :
    ((d :: ds).filter (fun x => decide (e < x))).length ≤ fuel := by
  have hmem : ds.foldl Nat.min d ∈ d :: ds := foldlMin_mem ds d
  have hlt := filter_length_lt_of_mem (p := fun x => decide (e < x)) hmem
      (by simp only [decide_eq_false_iff_not, not_lt]; exact he)
  simp only [List.length_cons] at hlt hl
  omega

theorem chunkPeriodsF_span : ∀ (fuel : ℕ) (l : List ℕ), l.length ≤ fuel →
    ∀ p ∈ chunkPeriodsF fuel l, p.2 - p.1 ≤ 31 := by
  intro fuel
  induction fuel with
  | zero =>
    intro l hl
    rw [List.length_eq_zero.mp (Nat.le_zero.mp hl)]
    simp [chunkPeriodsF]
  | succ fuel ih =>
    intro l hl p hp
    match l with
    | [] => simp [chunkPeriodsF] at hp
    | d :: ds =>
      simp only [chunkPeriodsF, List.mem_cons] at hp
      rcases hp with hp | hp
      · subst hp
        simp only
        split <;> omega
      · exact ih _ (chunk_filter_fuel d ds fuel hl _ (chunk_s_le_e d ds)) p hp

theorem chunkPeriodsF_cover : ∀ (fuel : ℕ) (l : List ℕ), l.length ≤ fuel →
    ∀ x ∈ l, ∃ p ∈ chunkPeriodsF fuel l, p.1 ≤ x ∧ x ≤ p.2 := by
  intro fuel
  induction fuel with
  | zero =>
    intro l hl
    rw [List.length_eq_zero.mp (Nat.le_zero.mp hl)]
    simp
  | succ fuel ih =>
    intro l hl x hx
    match l with
    | [] => simp at hx
    | d :: ds =>
      set s := ds.foldl Nat.min d with hs
      set mx := ds.foldl Nat.max d with hmx
      set e := if 30 < mx - s then s + 31 else mx with he
      have hsx : s ≤ x := foldlMin_le ds d x hx
      rcases le_or_lt x e with hxe | hex
      · refine ⟨(s, e), ?_, hsx, hxe⟩
        simp [chunkPeriodsF, ← hs, ← hmx, ← he]
      · have hxf : x ∈ (d :: ds).filter (fun y => decide (e < y)) :=
          List.mem_filter.mpr ⟨hx, by simpa using hex⟩
        have hlen : ((d :: ds).filter (fun y => decide (e < y))).length ≤ fuel :=
          chunk_filter_fuel d ds fuel hl e (by rw [he, hs, hmx]; exact chunk_s_le_e d ds)
        obtain ⟨p, hp, hp1, hp2⟩ := ih _ hlen x hxf
        refine ⟨p, ?_, hp1, hp2⟩
        simp only [chunkPeriodsF, List.mem_cons, ← hs, ← hmx, ← he]
        exact Or.inr hp

theorem chunkPeriodsF_chain : ∀ (fuel : ℕ) (l : List ℕ), l.length ≤ fuel →
    List.Chain' (fun p q : ℕ × ℕ => p.2 < q.1) (chunkPeriodsF fuel l) ∧
    (∀ lo : ℕ, (∀ x ∈ l, lo < x) → ∀ p ∈ chunkPeriodsF fuel l, lo < p.1) := by
  intro fuel
  induction fuel with
  | zero =>
    intro l hl
    rw [List.length_eq_zero.mp (Nat.le_zero.mp hl)]
    simp [chunkPeriodsF]
  | succ fuel ih =>
    intro l hl
    match l with
    | [] => simp [chunkPeriodsF]
    | d :: ds =>
      set s := ds.foldl Nat.min d with hs
      set mx := ds.foldl Nat.max d with hmx
      set e := if 30 < mx - s then s + 31 else mx with he
      have hlen : ((d :: ds).filter (fun y => decide (e < y))).length ≤ fuel :=
        chunk_filter_fuel d ds fuel hl e (by rw [he, hs, hmx]; exact chunk_s_le_e d ds)
      obtain ⟨ihc, ihlo⟩ := ih _ hlen
      have hrec : ∀ p ∈ chunkPeriodsF fuel ((d :: ds).filter (fun y => decide (e < y))),
          e < p.1 := by
        refine ihlo e ?_
        intro x hx
        simpa using (List.mem_filter.mp hx).2
      have hunfold : chunkPeriodsF (fuel + 1) (d :: ds) =
          (s, e) :: chunkPeriodsF fuel ((d :: ds).filter (fun y => decide (e < y))) := by
        simp [chunkPeriodsF, ← hs, ← hmx, ← he]
      constructor
      · rw [hunfold, List.chain'_cons']
        exact ⟨fun q hq => hrec q (List.mem_of_mem_head? hq), ihc⟩
      · intro lo hlo p hp
        rw [hunfold, List.mem_cons] at hp
        rcases hp with hp | hp
        · have : lo < s := hlo s (foldlMin_mem ds d)
          rw [hp]
          exact this
        · have hse : lo < e := by
            have h3 := hlo s (foldlMin_mem ds d)
            have h2 : s ≤ e := by rw [he, hs, hmx]; exact chunk_s_le_e d ds
            omega
          exact lt_trans hse (hrec p hp)

theorem fetchChunksF_eq (provider : ℕ → ℕ → List SleepFields) :
    ∀ (fuel : ℕ) (l : List ℕ),
    fetchChunksF provider fuel l =
      ((chunkPeriodsF fuel l).map (fun p => provider p.1 p.2)).flatten := by
  intro fuel
  induction fuel with
  | zero =>
    intro l
    match l with
    | [] => simp [fetchChunksF, chunkPeriodsF]
    | d :: ds => simp [fetchChunksF, chunkPeriodsF]
  | succ fuel ih =>
    intro l
    match l with
    | [] => simp [fetchChunksF, chunkPeriodsF]
    | d :: ds =>
      simp only [fetchChunksF, chunkPeriodsF, List.map_cons, List.flatten_cons]
      rw [ih]

/-- C6: the Session Acquirer partitions the missing-date list into
request windows each spanning at most 31 days from start to end; every
missing date is covered by some window; the windows are issued one at a
time in strictly ascending date order (each window ends before the next
begins); and the per-window results are concatenated in order into one
result list. -/
theorem c6_session_acquirer_chunking (ds : List ℕ) :
    (∀ p ∈ chunkPeriods ds, p.2 - p.1 ≤ 31) ∧
    (∀ x ∈ ds, ∃ p ∈ chunkPeriods ds, p.1 ≤ x ∧ x ≤ p.2) ∧
    List.Chain' (fun p q : ℕ × ℕ => p.2 < q.1) (chunkPeriods ds) ∧
    (∀ provider : ℕ → ℕ → List SleepFields,
      fetchChunks provider ds = ((chunkPeriods ds).map (fun p => provider p.1 p.2)).flatten) :=
  ⟨chunkPeriodsF_span ds.length ds le_rfl,
   chunkPeriodsF_cover ds.length ds le_rfl,
   (chunkPeriodsF_chain ds.length ds le_rfl).1,
   fun provider => fetchChunksF_eq provider ds.length ds⟩

/-- Witness for `c6_session_acquirer_chunking`: on the missing-date list
`[0, 5, 100]` some request window covers date 100. -/
theorem c6_session_acquirer_chunking_witness :
    ∃ p ∈ chunkPeriods [0, 5, 100], p.1 ≤ 100 ∧ 100 ≤ p.2 :=
  (c6_session_acquirer_chunking [0, 5, 100]).2.1 100 (by norm_num)

/-! ### Claim C1 -/

theorem mergeArchive_eq (a b : List Night) :
    mergeArchive a b = List.insertionSort byDate
      (a ++ b.filter (fun r => !(a.any (fun n => n.Prev_Day == r.Prev_Day)))) := by
  unfold mergeArchive
  split
  · rfl
  · next h =>
    have ha : a = [] := by
      cases a with
      | nil => rfl
      | cons x xs => simp at h
    subst ha
    simp

theorem datesOf_append (a b : List Night) :
    datesOf (a ++ b) = datesOf a ++ datesOf b :=
  List.map_append _ a b

theorem any_date_eq_false (a : List Night) (r : Night) :
    (a.any (fun n => n.Prev_Day == r.Prev_Day)) = false ↔ r.Prev_Day ∉ datesOf a := by
  rw [← Bool.not_eq_true, List.any_eq_true]
  constructor
  · intro h hd
    obtain ⟨n, hn, hnd⟩ := List.mem_map.mp hd
    exact h ⟨n, hn, by simp [hnd]⟩
  · intro h ⟨n, hn, hnd⟩
    exact h (List.mem_map.mpr ⟨n, hn, by simpa using hnd.symm⟩)

theorem mergeArchive_perm (nights batch : List Night) :
    List.Perm (mergeArchive nights batch)
      (nights ++ batch.filter (fun r => !(nights.any (fun n => n.Prev_Day == r.Prev_Day)))) := by
  rw [mergeArchive_eq]
  exact List.perm_insertionSort byDate _

theorem mergeArchive_sorted (nights batch : List Night) :
    sortedByDate (mergeArchive nights batch) := by
  rw [mergeArchive_eq]
  exact List.sorted_insertionSort byDate _

theorem mergeArchive_uniqueDates (nights batch : List Night)
    (ha : uniqueDates nights) (hb : uniqueDates batch) :
    uniqueDates (mergeArchive nights batch) := by
  unfold uniqueDates datesOf
  rw [((mergeArchive_perm nights batch).map (fun r => r.Prev_Day)).nodup_iff]
  rw [List.map_append, List.nodup_append]
  refine ⟨ha, ?_, ?_⟩
  · exact List.Nodup.sublist ((List.filter_sublist batch).map _) hb
  · intro d hda hdb
    obtain ⟨r, hr, hrd⟩ := List.mem_map.mp hdb
    obtain ⟨hrb, hp⟩ := List.mem_filter.mp hr
    have hnot : r.Prev_Day ∉ datesOf nights := by
      rw [← any_date_eq_false nights r]
      simpa using hp
    exact hnot (hrd ▸ hda)

theorem mem_mergeArchive (nights batch : List Night) (r : Night) :
    r ∈ mergeArchive nights batch ↔
      r ∈ nights ∨ (r ∈ batch ∧ r.Prev_Day ∉ datesOf nights) := by
  rw [(mergeArchive_perm nights batch).mem_iff, List.mem_append, List.mem_filter]
  constructor
  · rintro (h | ⟨hb, hp⟩)
    · exact Or.inl h
    · exact Or.inr ⟨hb, (any_date_eq_false nights r).mp (by simpa using hp)⟩
  · rintro (h | ⟨hb, hp⟩)
    · exact Or.inl h
    · exact Or.inr ⟨hb, by simp [(any_date_eq_false nights r).mpr hp]⟩

theorem datesOf_mergeArchive (nights batch : List Night) (d : ℕ) :
    d ∈ datesOf (mergeArchive nights batch) ↔
      d ∈ datesOf nights ∨ d ∈ datesOf batch := by
  constructor
  · intro hd
    obtain ⟨r, hr, hrd⟩ := List.mem_map.mp hd
    rcases (mem_mergeArchive nights batch r).mp hr with h | ⟨h, _⟩
    · exact Or.inl (List.mem_map.mpr ⟨r, h, hrd⟩)
    · exact Or.inr (List.mem_map.mpr ⟨r, h, hrd⟩)
  · intro hd
    rcases hd with hd | hd
    · obtain ⟨r, hr, hrd⟩ := List.mem_map.mp hd
      exact List.mem_map.mpr ⟨r, (mem_mergeArchive nights batch r).mpr (Or.inl hr), hrd⟩
    · obtain ⟨r, hr, hrd⟩ := List.mem_map.mp hd
      by_cases hda : d ∈ datesOf nights
      · obtain ⟨n, hn, hnd⟩ := List.mem_map.mp hda
        exact List.mem_map.mpr ⟨n, (mem_mergeArchive nights batch n).mpr (Or.inl hn), hnd⟩
      · refine List.mem_map.mpr ⟨r, (mem_mergeArchive nights batch r).mpr
          (Or.inr ⟨hr, ?_⟩), hrd⟩
        rw [hrd]
        exact hda

/-- C1: the claim asserts that the merge yields unique previous-day
dates for every prior archive with unique dates and **every** batch of
newly normalized records.  Counterexample: the empty archive has unique
dates, but merging a batch that repeats date 7 leaves two records with
previous-day 7 — the merge deduplicates new records only against the
prior archive, never within the batch. -/
theorem c1_counterexample :
    uniqueDates ([] : List Night) ∧
    ¬ uniqueDates (mergeArchive [] [nullNight 7, nullNight 7]) := by
  constructor
  · decide
  · decide

/-- C1 (amended): when the prior archive has unique previous-day dates
**and the batch of newly normalized records has unique previous-day
dates as well**, the merged archive has at most one record per
previous-day date, and it is sorted ascending by date (the sortedness
half needs no hypothesis). -/
theorem c1_merge_unique_sorted (nights batch : List Night)
    (ha : uniqueDates nights) (hb : uniqueDates batch) :
    uniqueDates (mergeArchive nights batch) ∧ sortedByDate (mergeArchive nights batch) :=
  ⟨mergeArchive_uniqueDates nights batch ha hb, mergeArchive_sorted nights batch⟩

/-- Witness for `c1_merge_unique_sorted`: merging the batch `[night 7]`
into the archive `[night 5]`. -/
theorem c1_merge_unique_sorted_witness :
    uniqueDates (mergeArchive [nullNight 5] [nullNight 7]) ∧
    sortedByDate (mergeArchive [nullNight 5] [nullNight 7]) :=
  c1_merge_unique_sorted [nullNight 5] [nullNight 7] (by decide) (by decide)

/-! ### Claim C8 -/

/-- C8: the claim says a legacy record is excluded as a likely nap
exactly when its duration is under 4 hours **and** its bed time falls in
the daytime window, so that a short record with a bed time outside that
window is retained.  The code cannot do this: its daytime test
`(Bed_ToD > -3) | (Bed_ToD < 7)` is a tautology — every rational bed
time of day satisfies it — so every known-duration record under 4 hours
is dropped regardless of bed time.  Failing input: a 3-hour sleep
starting at 23:00 (`Bed_ToD = -1`, nighttime) is classified a nap and
dropped, where the claim (and the spec's intent of filtering *daytime*
naps) retains it.  Rows with entirely unknown duration are indeed always
dropped. -/
theorem c8_nap_filter_daytime_tautology :
    (∀ x : ℚ, daytime_asleep_bool (some x) = true) ∧
    nap_bool (some (3 * 3600)) (some (-1)) = true ∧
    ms3_keep (some (3 * 3600)) (some (-1)) = false ∧
    (∀ b : Option ℚ, ms3_keep none b = false) := by
  refine ⟨?_, by decide, by decide, ?_⟩
  · intro x
    unfold daytime_asleep_bool
    rcases lt_or_le (-3 : ℚ) x with h | h
    · simp [h]
    · have h7 : x < 7 := lt_of_le_of_lt h (by norm_num)
      simp [h7]
  · intro b
    simp [ms3_keep, unknown_dur_bool]

/-! ### Claim C9 -/

/-- C9: the claim says the cross-midnight adjustment applies to every
row of the legacy dataset.  Counterexample: a dataset with one row whose
bed hour is 3 (past midnight).  The loop runs over
`range(len(ms2_df)-1)`, which skips the final row, so the row keeps
previous-day 5 although the claim requires it to become 4. -/
theorem c9_counterexample :
    past_midnight ⟨5, some 3⟩ = true ∧
    adjustPrevDays [⟨5, some 3⟩] = [⟨5, some 3⟩] := by
  constructor
  · decide
  · decide

/-- C9 (amended): for every row **except the final one**, the
previous-day date is decremented exactly when the recorded bed hour is
before noon (past midnight), and left unchanged otherwise; the final row
is never adjusted, whatever its bed time. -/
theorem c9_cross_midnight_adjustment (rows : List MsRow) (i : ℕ) (r : MsRow)
    (hir : rows[i]? = some r) :
    (i + 1 < rows.length → past_midnight r = true →
      (adjustPrevDays rows)[i]? = some ⟨r.Prev_Day - 1, r.Bed_Hour⟩) ∧
    (i + 1 < rows.length → past_midnight r = false →
      (adjustPrevDays rows)[i]? = some r) ∧
    (i + 1 = rows.length → (adjustPrevDays rows)[i]? = some r) := by
  refine ⟨?_, ?_, ?_⟩
  · intro hlen hpm
    simp [adjustPrevDays, List.getElem?_mapIdx, hir, hlen, hpm]
  · intro hlen hpm
    simp [adjustPrevDays, List.getElem?_mapIdx, hir, hlen, hpm]
  · intro hlen
    simp [adjustPrevDays, List.getElem?_mapIdx, hir, hlen]

/-- Witness for `c9_cross_midnight_adjustment` on a two-row dataset:
the first row (bed hour 2, past midnight) is decremented; the second
and final row (bed hour 1, also past midnight) is untouched. -/
theorem c9_cross_midnight_adjustment_witness :
    (adjustPrevDays [⟨5, some 2⟩, ⟨6, some 1⟩])[0]? = some ⟨4, some 2⟩ ∧
    (adjustPrevDays [⟨5, some 2⟩, ⟨6, some 1⟩])[1]? = some ⟨6, some 1⟩ :=
  ⟨(c9_cross_midnight_adjustment [⟨5, some 2⟩, ⟨6, some 1⟩] 0 ⟨5, some 2⟩ (by decide)).1
      (by decide) (by decide),
   (c9_cross_midnight_adjustment [⟨5, some 2⟩, ⟨6, some 1⟩] 1 ⟨6, some 1⟩ (by decide)).2.2
      (by decide)⟩

/-! ### Claim C7 -/

theorem step4Loop_abort (almanac : ℕ → Option SunTimes) (d : ℕ) (hd : almanac d = none) :
    ∀ (pre : List ℕ) (acc : List SunRow) (post : List ℕ),
    (∀ x ∈ pre, almanac x ≠ none) →
    step4Loop almanac acc (pre ++ d :: post) = none := by
  intro pre
  induction pre with
  | nil =>
    intro acc post _
    simp [step4Loop, hd]
  | cons p ps ih =>
    intro acc post hpre
    have hp : almanac p ≠ none := hpre p (List.mem_cons_self p ps)
    match hap : almanac p with
    | none => exact absurd hap hp
    | some t =>
      simp only [List.cons_append, step4Loop, hap, List.append_eq]
      exact ih _ post (fun x hx => hpre x (List.mem_cons_of_mem p hx))

theorem step4Requested_abort (almanac : ℕ → Option SunTimes) (d : ℕ)
    (hd : almanac d = none) :
    ∀ (pre post : List ℕ), (∀ x ∈ pre, almanac x ≠ none) →
    step4Requested almanac (pre ++ d :: post) = pre ++ [d] := by
  intro pre
  induction pre with
  | nil =>
    intro post _
    simp [step4Requested, hd]
  | cons p ps ih =>
    intro post hpre
    have hp : almanac p ≠ none := hpre p (List.mem_cons_self p ps)
    match hap : almanac p with
    | none => exact absurd hap hp
    | some t =>
      simp only [List.cons_append, step4Requested, hap, List.append_eq]
      rw [ih post (fun x hx => hpre x (List.mem_cons_of_mem p hx))]

/-- C7: the claim asserts that when a date request fails, the rows
already appended for earlier dates of the same run are persisted to the
solar archive.  Counterexample: the almanac answers date 0 and fails on
date 1; starting from an empty archive over the date list `[0, 1]`, the
stage aborts and the archive on disk stays empty — the row for date 0 is
lost, because `sun_df.to_pickle` only runs after the whole loop. -/
theorem c7_counterexample :
    (fun d => if d = 0 then some (⟨(7, 30), (19, 30)⟩ : SunTimes) else none) 0 ≠ none ∧
    step4Disk (fun d => if d = 0 then some (⟨(7, 30), (19, 30)⟩ : SunTimes) else none)
      [] [0, 1] = [] := by
  constructor
  · simp
  · rfl

/-- C7 (amended): a non-success response for any single missing date
aborts the stage: the loop returns the failure before issuing any
request for the dates after the failing one (the requested dates are
exactly the successful prefix plus the failing date), and on an aborted
run the solar archive on disk keeps its previous contents unchanged —
the rows appended in memory for earlier dates of the run are **lost**,
not persisted, and previously-persisted contents are never corrupted. -/
theorem c7_almanac_abort (almanac : ℕ → Option SunTimes) (oldDisk : List SunRow)
    (pre post : List ℕ) (d : ℕ)
    (hpre : ∀ x ∈ pre, almanac x ≠ none) (hd : almanac d = none) :
    step4Loop almanac oldDisk (pre ++ d :: post) = none ∧
    step4Requested almanac (pre ++ d :: post) = pre ++ [d] ∧
    (∀ complete : List ℕ,
      step4Loop almanac oldDisk (newSunDates oldDisk complete) = none →
      step4Disk almanac oldDisk complete = oldDisk) := by
  refine ⟨step4Loop_abort almanac d hd pre oldDisk post hpre,
    step4Requested_abort almanac d hd pre post hpre, ?_⟩
  intro complete habort
  unfold step4Disk
  rw [habort]

/-- Witness for `c7_almanac_abort`: almanac succeeding on date 0 and
failing on date 1, prior archive empty, date list `[0, 1]`. -/
theorem c7_almanac_abort_witness :
    step4Loop (fun d => if d = 0 then some (⟨(7, 30), (19, 30)⟩ : SunTimes) else none)
      [] ([0] ++ 1 :: []) = none ∧
    step4Requested (fun d => if d = 0 then some (⟨(7, 30), (19, 30)⟩ : SunTimes) else none)
      ([0] ++ 1 :: []) = [0] ++ [1] ∧
    (∀ complete : List ℕ,
      step4Loop (fun d => if d = 0 then some (⟨(7, 30), (19, 30)⟩ : SunTimes) else none)
        [] (newSunDates [] complete) = none →
      step4Disk (fun d => if d = 0 then some (⟨(7, 30), (19, 30)⟩ : SunTimes) else none)
        [] complete = []) :=
  c7_almanac_abort _ [] [0] [] 1 (by decide) (by decide)

/-! ### Trim-loop lemmas (claims C2, C3, C10) -/

instance : IsAntisymm Night (fun a b => a.Prev_Day < b.Prev_Day) :=
  ⟨fun _ _ h h' => absurd h' (Nat.lt_asymm h)⟩

theorem trimLoop_append (l : List Night) (r : Night) :
    ∀ (fuel i : ℕ) (acc : List ℕ), 1 ≤ i → i ≤ l.length + 1 → l.length + 2 - i ≤ fuel →
    trimLoop (l ++ [r]) (i + 1) fuel acc =
      (trimLoop l i fuel acc).mapError (fun e => e + 1) := by
  intro fuel
  induction fuel with
  | zero => intro i acc h1 h2 h3; omega
  | succ fuel ih =>
    intro i acc h1 h2 h3
    by_cases hle : i ≤ l.length
    · have hc2 : 1 ≤ i ∧ i ≤ l.length := ⟨h1, hle⟩
      have hc1 : 1 ≤ i + 1 ∧ i + 1 ≤ (l ++ [r]).length := by
        simp only [List.length_append, List.length_singleton]
        omega
      have hget : (l ++ [r]).getD ((l ++ [r]).length - (i + 1)) (nullNight 0)
          = l.getD (l.length - i) (nullNight 0) := by
        have hidx : (l ++ [r]).length - (i + 1) = l.length - i := by
          simp only [List.length_append, List.length_singleton]
          omega
        rw [hidx]
        have hlt : l.length - i < l.length := by omega
        rw [List.getD_eq_getElem?_getD, List.getD_eq_getElem?_getD,
          List.getElem?_append_left hlt]
      rw [trimLoop, trimLoop, if_pos hc1, if_pos hc2, hget]
      by_cases hnull : nullTotal (l.getD (l.length - i) (nullNight 0)) = true
      · rw [if_pos hnull, if_pos hnull]
        exact ih (i + 1) (acc ++ [(l.getD (l.length - i) (nullNight 0)).Prev_Day])
          (by omega) (by omega) (by omega)
      · rw [if_neg hnull, if_neg hnull]
        rfl
    · have hc1 : ¬ (1 ≤ i + 1 ∧ i + 1 ≤ (l ++ [r]).length) := by
        simp only [List.length_append, List.length_singleton]
        omega
      have hc2 : ¬ (1 ≤ i ∧ i ≤ l.length) := by omega
      rw [trimLoop, trimLoop, if_neg hc1, if_neg hc2]
      rfl

theorem trimLoop_allNull : ∀ (df : List Night) (fuel : ℕ) (acc : List ℕ),
    (∀ r ∈ df, r.Total_Dur = none) → df.length + 1 ≤ fuel →
    trimLoop df 1 fuel acc = .error (df.length + 1) := by
  intro df
  induction df using List.reverseRecOn with
  | nil =>
    intro fuel acc _ hf
    obtain ⟨f, rfl⟩ : ∃ f, fuel = f + 1 := ⟨fuel - 1, by omega⟩
    rw [trimLoop, if_neg (by simp)]
    rfl
  | append_singleton l r ih =>
    intro fuel acc hnull hf
    obtain ⟨f, rfl⟩ : ∃ f, fuel = f + 1 := ⟨fuel - 1, by omega⟩
    have hc : 1 ≤ 1 ∧ 1 ≤ (l ++ [r]).length := by
      simp only [List.length_append, List.length_singleton]
      omega
    have hget : (l ++ [r]).getD ((l ++ [r]).length - 1) (nullNight 0) = r := by
      have hidx : (l ++ [r]).length - 1 = l.length := by
        simp only [List.length_append, List.length_singleton]
        omega
      rw [hidx, List.getD_eq_getElem?_getD, List.getElem?_concat_length]
      rfl
    have hr : nullTotal r = true := by
      have h := hnull r (by simp)
      simp [nullTotal, h]
    rw [trimLoop, if_pos hc, hget, if_pos hr]
    have hfl : l.length + 2 - 1 ≤ f := by
      simp only [List.length_append, List.length_singleton] at hf
      omega
    rw [trimLoop_append l r f 1 (acc ++ [r.Prev_Day]) le_rfl (by omega) hfl]
    rw [ih f (acc ++ [r.Prev_Day]) (fun x hx => hnull x (by simp [hx]))
      (by simp only [List.length_append, List.length_singleton] at hf; omega)]
    simp only [Except.mapError, List.length_append, List.length_singleton]

theorem trimLoop_trailing : ∀ (B A : List Night), A ≠ [] →
    (∀ x, A.getLast? = some x → x.Total_Dur ≠ none) →
    (∀ r ∈ B, r.Total_Dur = none) →
    ∀ (fuel : ℕ) (acc : List ℕ), (A ++ B).length + 1 ≤ fuel →
    trimLoop (A ++ B) 1 fuel acc = .ok (acc ++ datesOf B.reverse) := by
  intro B
  induction B using List.reverseRecOn with
  | nil =>
    intro A hA hlast _ fuel acc hf
    obtain ⟨f, rfl⟩ : ∃ f, fuel = f + 1 := ⟨fuel - 1, by omega⟩
    have hAlen : 1 ≤ A.length := by
      cases A with
      | nil => exact absurd rfl hA
      | cons x xs => simp
    have hc : 1 ≤ 1 ∧ 1 ≤ (A ++ ([] : List Night)).length := by
      simpa using hAlen
    have hget : (A ++ ([] : List Night)).getD ((A ++ ([] : List Night)).length - 1)
        (nullNight 0) = A.getLast hA := by
      simp only [List.append_nil]
      rw [List.getD_eq_getElem?_getD,
        List.getElem?_eq_getElem (by omega : A.length - 1 < A.length)]
      simp [List.getLast_eq_getElem]
    have hnn : nullTotal (A.getLast hA) = false := by
      have h := hlast (A.getLast hA) (List.getLast?_eq_getLast A hA)
      obtain ⟨v, hv⟩ := Option.ne_none_iff_exists'.mp h
      simp [nullTotal, hv]
    rw [trimLoop, if_pos hc, hget, hnn]
    simp [datesOf]
  | append_singleton B' r ih =>
    intro A hA hlast hnull fuel acc hf
    obtain ⟨f, rfl⟩ : ∃ f, fuel = f + 1 := ⟨fuel - 1, by omega⟩
    rw [← List.append_assoc]
    have hc : 1 ≤ 1 ∧ 1 ≤ ((A ++ B') ++ [r]).length := by
      simp only [List.length_append, List.length_singleton]
      omega
    have hget : ((A ++ B') ++ [r]).getD (((A ++ B') ++ [r]).length - 1) (nullNight 0)
        = r := by
      have hidx : ((A ++ B') ++ [r]).length - 1 = (A ++ B').length := by
        simp only [List.length_append, List.length_singleton]
        omega
      rw [hidx, List.getD_eq_getElem?_getD, List.getElem?_concat_length]
      rfl
    have hr : nullTotal r = true := by
      have := hnull r (by simp)
      simp [nullTotal, this]
    rw [trimLoop, if_pos hc, hget, if_pos hr]
    have hfl : (A ++ B').length + 2 - 1 ≤ f := by
      simp only [List.length_append, List.length_singleton] at hf ⊢
      omega
    rw [trimLoop_append (A ++ B') r f 1 (acc ++ [r.Prev_Day]) le_rfl (by omega) hfl]
    rw [ih A hA hlast (fun x hx => hnull x (by simp [hx])) f (acc ++ [r.Prev_Day])
      (by simp only [List.length_append, List.length_singleton] at hf ⊢; omega)]
    simp [datesOf, Except.mapError]

theorem confirmedPrefix_append_trailingNulls (df : List Night) :
    confirmedPrefix df ++ trailingNulls df = df := by
  unfold confirmedPrefix trailingNulls
  rw [← List.reverse_append, List.takeWhile_append_dropWhile, List.reverse_reverse]

theorem trailingNulls_null (df : List Night) :
    ∀ r ∈ trailingNulls df, r.Total_Dur = none := by
  intro r hr
  rw [trailingNulls, List.mem_reverse] at hr
  have := List.mem_takeWhile_imp hr
  simpa [nullTotal, Option.isNone_iff_eq_none] using this

theorem confirmedPrefix_ne_nil (df : List Night)
    (hex : ∃ r ∈ df, r.Total_Dur ≠ none) : confirmedPrefix df ≠ [] := by
  intro hc
  obtain ⟨r, hr, hne⟩ := hex
  have hdf : trailingNulls df = df := by
    have h := confirmedPrefix_append_trailingNulls df
    rw [hc] at h
    simpa using h
  exact hne (trailingNulls_null df r (by rw [hdf]; exact hr))

theorem confirmedPrefix_getLast (df : List Night) :
    ∀ x, (confirmedPrefix df).getLast? = some x → x.Total_Dur ≠ none := by
  intro x hx
  unfold confirmedPrefix at hx
  rw [List.getLast?_reverse] at hx
  have hne : df.reverse.dropWhile nullTotal ≠ [] := by
    intro h
    rw [h] at hx
    simp at hx
  have hhead := List.head_dropWhile_not nullTotal df.reverse hne
  have hhx : (df.reverse.dropWhile nullTotal).head hne = x := by
    have h := List.head?_eq_head hne
    rw [h] at hx
    exact Option.some_injective _ hx
  rw [hhx] at hhead
  exact fun heq => by simp [nullTotal, heq] at hhead

theorem trimRun_err (df : List Night) (hall : ∀ r ∈ df, r.Total_Dur = none) :
    trimRun df = .error (df.length + 1) :=
  trimLoop_allNull df (df.length + 1) [] hall le_rfl

theorem trimRun_append_ok (A B : List Night) (hA : A ≠ [])
    (hlast : ∀ x, A.getLast? = some x → x.Total_Dur ≠ none)
    (hB : ∀ r ∈ B, r.Total_Dur = none) :
    trimRun (A ++ B) = .ok (datesOf B.reverse) := by
  unfold trimRun
  rw [trimLoop_trailing B A hA hlast hB ((A ++ B).length + 1) [] le_rfl]
  simp

theorem trimRun_ok (df : List Night) (hex : ∃ r ∈ df, r.Total_Dur ≠ none) :
    trimRun df = .ok (datesOf (trailingNulls df).reverse) := by
  have hA := confirmedPrefix_ne_nil df hex
  calc trimRun df
      = trimRun (confirmedPrefix df ++ trailingNulls df) := by
        rw [confirmedPrefix_append_trailingNulls]
    _ = .ok (datesOf (trailingNulls df).reverse) :=
        trimRun_append_ok _ _ hA (confirmedPrefix_getLast df) (trailingNulls_null df)

theorem mem_datesOf_reverse (l : List Night) (d : ℕ) :
    d ∈ datesOf l.reverse ↔ d ∈ datesOf l := by
  simp [datesOf]

theorem trimArchive_append (A B : List Night) (hA : A ≠ [])
    (hlast : ∀ x, A.getLast? = some x → x.Total_Dur ≠ none)
    (hB : ∀ r ∈ B, r.Total_Dur = none)
    (hdisj : ∀ x ∈ A, x.Prev_Day ∉ datesOf B) :
    trimArchive (A ++ B) = some A := by
  unfold trimArchive
  rw [trimRun_append_ok A B hA hlast hB]
  dsimp only
  rw [List.filter_append]
  have h1 : A.filter (fun r => !(decide (r.Prev_Day ∈ datesOf B.reverse))) = A := by
    rw [List.filter_eq_self]
    intro a ha
    have : a.Prev_Day ∉ datesOf B.reverse := by
      rw [mem_datesOf_reverse]
      exact hdisj a ha
    simp [this]
  have h2 : B.filter (fun r => !(decide (r.Prev_Day ∈ datesOf B.reverse))) = [] := by
    rw [List.filter_eq_nil_iff]
    intro r hr
    have : r.Prev_Day ∈ datesOf B.reverse := by
      rw [mem_datesOf_reverse]
      exact List.mem_map.mpr ⟨r, hr, rfl⟩
    simp [this]
  rw [h1, h2, List.append_nil]

theorem trimArchive_eq (df : List Night) (hu : uniqueDates df)
    (hex : ∃ r ∈ df, r.Total_Dur ≠ none) :
    trimArchive df = some (confirmedPrefix df) := by
  have hdisj : ∀ x ∈ confirmedPrefix df, x.Prev_Day ∉ datesOf (trailingNulls df) := by
    have hnd : (datesOf (confirmedPrefix df ++ trailingNulls df)).Nodup := by
      rw [confirmedPrefix_append_trailingNulls]
      exact hu
    rw [datesOf_append, List.nodup_append] at hnd
    intro x hx hmem
    exact hnd.2.2 (List.mem_map.mpr ⟨x, hx, rfl⟩) hmem
  calc trimArchive df
      = trimArchive (confirmedPrefix df ++ trailingNulls df) := by
        rw [confirmedPrefix_append_trailingNulls]
    _ = some (confirmedPrefix df) :=
        trimArchive_append _ _ (confirmedPrefix_ne_nil df hex)
          (confirmedPrefix_getLast df) (trailingNulls_null df) hdisj

/-! ### Claim C10 -/

/-- C10: the trim loop's condition evaluates `iloc[-i]` with a
non-short-circuiting `&` before the bound check can stop it.  When at
least one record of the merged archive has a non-null total duration,
every access is in range and the loop terminates, returning the dates of
the trailing all-null suffix; when every record's total duration is
null, the loop reaches the access at position `-(len+1)`, which is out
of range (the `IndexError` branch, `.error (len + 1)`). -/
theorem c10_trim_loop_safety (df : List Night) :
    ((∃ r ∈ df, r.Total_Dur ≠ none) →
      trimRun df = .ok (datesOf (trailingNulls df).reverse)) ∧
    ((∀ r ∈ df, r.Total_Dur = none) →
      trimRun df = .error (df.length + 1)) :=
  ⟨trimRun_ok df, trimRun_err df⟩

/-- Witness for `c10_trim_loop_safety`: a one-record archive with a
known duration trims cleanly; a two-record all-null archive reaches the
out-of-range access at position `-3`. -/
theorem c10_trim_loop_safety_witness :
    trimRun [nightOf 0 sampleFields] =
      .ok (datesOf (trailingNulls [nightOf 0 sampleFields]).reverse) ∧
    trimRun [nullNight 0, nullNight 1] = .error 3 :=
  ⟨(c10_trim_loop_safety [nightOf 0 sampleFields]).1
      ⟨nightOf 0 sampleFields, by decide, by decide⟩,
    (c10_trim_loop_safety [nullNight 0, nullNight 1]).2 (by decide)⟩

/-! ### Run-level lemmas (claims C2, C3) -/

theorem normalizeAt_date (fetch : ℕ → Option SleepFields) (d : ℕ) :
    (normalizeAt fetch d).Prev_Day = d := by
  unfold normalizeAt
  cases fetch d <;> rfl

theorem mem_newNights_elim (fetch : ℕ → Option SleepFields) (m : List ℕ) (r : Night)
    (hr : r ∈ newNights fetch m) :
    r.Prev_Day ∈ m ∧ r = normalizeAt fetch r.Prev_Day := by
  unfold newNights at hr
  rcases List.mem_append.mp hr with h | h
  · obtain ⟨d, hd, hmap⟩ := List.mem_filterMap.mp h
    cases hf : fetch d with
    | none =>
      rw [hf] at hmap
      simp at hmap
    | some f =>
      rw [hf] at hmap
      simp only [Option.map_some'] at hmap
      have hrd : r = nightOf d f := (Option.some_injective _ hmap).symm
      subst hrd
      exact ⟨hd, by simp [normalizeAt, nightOf, hf]⟩
  · obtain ⟨d, hd, hrd⟩ := List.mem_map.mp h
    obtain ⟨hdm, hnone⟩ := List.mem_filter.mp hd
    have hfn : fetch d = none := by
      simpa [Option.isNone_iff_eq_none] using hnone
    subst hrd
    exact ⟨hdm, by simp [normalizeAt, nullNight, hfn]⟩

theorem normalizeAt_mem_newNights (fetch : ℕ → Option SleepFields) (m : List ℕ) (d : ℕ)
    (hd : d ∈ m) : normalizeAt fetch d ∈ newNights fetch m := by
  unfold newNights
  cases hf : fetch d with
  | some f =>
    refine List.mem_append.mpr (Or.inl ?_)
    refine List.mem_filterMap.mpr ⟨d, hd, ?_⟩
    simp [normalizeAt, hf]
  | none =>
    refine List.mem_append.mpr (Or.inr ?_)
    refine List.mem_map.mpr ⟨d, List.mem_filter.mpr ⟨hd, by simp [hf]⟩, ?_⟩
    simp [normalizeAt, hf]

theorem mem_datesOf_newNights (fetch : ℕ → Option SleepFields) (m : List ℕ) (d : ℕ) :
    d ∈ datesOf (newNights fetch m) ↔ d ∈ m := by
  constructor
  · intro h
    obtain ⟨r, hr, hrd⟩ := List.mem_map.mp h
    exact hrd ▸ (mem_newNights_elim fetch m r hr).1
  · intro h
    exact List.mem_map.mpr
      ⟨normalizeAt fetch d, normalizeAt_mem_newNights fetch m d h, normalizeAt_date fetch d⟩

theorem datesOf_filterMap_fetch (fetch : ℕ → Option SleepFields) (m : List ℕ) :
    datesOf (m.filterMap (fun d => (fetch d).map (nightOf d))) =
      m.filter (fun d => (fetch d).isSome) := by
  induction m with
  | nil => rfl
  | cons d m' ih =>
    cases hf : fetch d with
    | some f =>
      simp only [List.filterMap_cons, hf, Option.map_some', List.filter_cons]
      rw [if_pos (by simp [hf])]
      simpa [datesOf, nightOf] using ih
    | none =>
      simp only [List.filterMap_cons, hf, Option.map_none', List.filter_cons]
      rw [if_neg (by simp [hf])]
      exact ih

theorem datesOf_map_nullNight (m : List ℕ) :
    datesOf (m.map nullNight) = m := by
  induction m with
  | nil => rfl
  | cons d m' ih =>
    show d :: datesOf (m'.map nullNight) = d :: m'
    rw [ih]

theorem newNights_nodup (fetch : ℕ → Option SleepFields) (m : List ℕ) (hm : m.Nodup) :
    uniqueDates (newNights fetch m) := by
  unfold uniqueDates newNights
  rw [datesOf_append, datesOf_filterMap_fetch, datesOf_map_nullNight, List.nodup_append]
  refine ⟨hm.filter _, hm.filter _, ?_⟩
  intro d hd1 hd2
  have h1 := (List.mem_filter.mp hd1).2
  have h2 := (List.mem_filter.mp hd2).2
  simp only [Option.isSome_iff_exists, decide_eq_true_eq] at h1
  simp only [Option.isNone_iff_eq_none, decide_eq_true_eq] at h2
  obtain ⟨f, hf⟩ := h1
  rw [h2] at hf
  exact Option.noConfusion hf

theorem mem_step0Missing (req : List ℕ) (a : List Night) (d : ℕ) :
    d ∈ step0Missing req a ↔ d ∈ req ∧ d ∉ datesOf a := by
  unfold step0Missing
  split
  · rw [List.mem_filter]
    simp
  · next h =>
    have ha : a = [] := by
      cases a with
      | nil => rfl
      | cons x xs => simp at h
    subst ha
    simp [datesOf]

theorem step0Missing_nodup (req : List ℕ) (a : List Night) (hreq : req.Nodup) :
    (step0Missing req a).Nodup := by
  unfold step0Missing
  split
  · exact hreq.filter _
  · exact hreq

theorem mem_mergedOnce (req : List ℕ) (fetch : ℕ → Option SleepFields) (a : List Night)
    (r : Night) :
    r ∈ mergedOnce req fetch a ↔
      r ∈ a ∨ (r ∈ newNights fetch (step0Missing req a) ∧ r.Prev_Day ∉ datesOf a) :=
  mem_mergeArchive a _ r

theorem mergedOnce_dates (req : List ℕ) (fetch : ℕ → Option SleepFields) (a : List Night)
    (d : ℕ) :
    d ∈ datesOf (mergedOnce req fetch a) ↔
      d ∈ datesOf a ∨ (d ∈ req ∧ d ∉ datesOf a) := by
  unfold mergedOnce
  rw [datesOf_mergeArchive]
  constructor
  · rintro (h | h)
    · exact Or.inl h
    · exact Or.inr ((mem_step0Missing req a d).mp ((mem_datesOf_newNights _ _ _).mp h))
  · rintro (h | h)
    · exact Or.inl h
    · exact Or.inr ((mem_datesOf_newNights _ _ _).mpr ((mem_step0Missing req a d).mpr h))

theorem req_mem_mergedOnce (req : List ℕ) (fetch : ℕ → Option SleepFields) (a : List Night)
    (d : ℕ) (hd : d ∈ req) : d ∈ datesOf (mergedOnce req fetch a) := by
  rw [mergedOnce_dates]
  by_cases hda : d ∈ datesOf a
  · exact Or.inl hda
  · exact Or.inr ⟨hd, hda⟩

theorem sorted_nodup_ext (l₁ l₂ : List Night) (hp : List.Perm l₁ l₂)
    (hs₁ : sortedByDate l₁) (hs₂ : sortedByDate l₂) (hu : uniqueDates l₁) : l₁ = l₂ := by
  have hu₂ : uniqueDates l₂ := by
    unfold uniqueDates datesOf at hu ⊢
    exact ((hp.map _).nodup_iff).mp hu
  have hstrict : ∀ (l : List Night), sortedByDate l → uniqueDates l →
      List.Pairwise (fun a b : Night => a.Prev_Day < b.Prev_Day) l := by
    intro l hs hul
    have hne : List.Pairwise (fun a b : Night => a.Prev_Day ≠ b.Prev_Day) l := by
      have hnd : List.Pairwise (fun x y : ℕ => x ≠ y) (datesOf l) := hul
      exact List.pairwise_map.mp hnd
    exact (hs.and hne).imp (fun hab => lt_of_le_of_ne hab.1 hab.2)
  exact List.eq_of_perm_of_sorted hp (hstrict l₁ hs₁ hu) (hstrict l₂ hs₂ hu₂)

theorem confirmed_trailing_lt (df : List Night) (hu : uniqueDates df)
    (hs : sortedByDate df) :
    ∀ x ∈ confirmedPrefix df, ∀ t ∈ trailingNulls df, x.Prev_Day < t.Prev_Day := by
  intro x hx t ht
  have hdec := confirmedPrefix_append_trailingNulls df
  have hp : List.Pairwise byDate (confirmedPrefix df ++ trailingNulls df) := by
    rw [hdec]
    exact hs
  have hle : x.Prev_Day ≤ t.Prev_Day := (List.pairwise_append.mp hp).2.2 x hx t ht
  have hnd : (datesOf (confirmedPrefix df ++ trailingNulls df)).Nodup := by
    rw [hdec]
    exact hu
  rw [datesOf_append, List.nodup_append] at hnd
  have hne : x.Prev_Day ≠ t.Prev_Day := by
    intro heq
    exact hnd.2.2 (List.mem_map.mpr ⟨x, hx, rfl⟩)
      (by rw [heq]; exact List.mem_map.mpr ⟨t, ht, rfl⟩)
  exact lt_of_le_of_ne hle hne

theorem sorted_le_getLast (l : List Night) (hs : sortedByDate l) (r : Night) (hr : r ∈ l)
    (x : Night) (hx : l.getLast? = some x) : r.Prev_Day ≤ x.Prev_Day := by
  have hne : l ≠ [] := by
    rintro rfl
    simp at hx
  have hxl : x = l.getLast hne := by
    rw [List.getLast?_eq_getLast l hne] at hx
    exact (Option.some_injective _ hx).symm
  have hdec := List.dropLast_concat_getLast hne
  have hp : List.Pairwise byDate (l.dropLast ++ [l.getLast hne]) := by
    rw [hdec]
    exact hs
  rw [← hdec] at hr
  rcases List.mem_append.mp hr with h' | h'
  · have hle := (List.pairwise_append.mp hp).2.2 r h' (l.getLast hne)
      (List.mem_singleton.mpr rfl)
    rw [hxl]
    exact hle
  · rw [List.mem_singleton] at h'
    rw [hxl, ← h']

theorem runOnce_structure (req : List ℕ) (fetch : ℕ → Option SleepFields)
    (a A : List Night) (hreq : req.Nodup) (ha : uniqueDates a)
    (h : runOnce req fetch a = some A) :
    A = confirmedPrefix (mergedOnce req fetch a) ∧
    uniqueDates (mergedOnce req fetch a) ∧
    sortedByDate (mergedOnce req fetch a) ∧
    (∃ r ∈ mergedOnce req fetch a, r.Total_Dur ≠ none) ∧
    A ≠ [] ∧ (∀ x, A.getLast? = some x → x.Total_Dur ≠ none) ∧
    uniqueDates A ∧ sortedByDate A := by
  have hu : uniqueDates (mergedOnce req fetch a) :=
    mergeArchive_uniqueDates _ _ ha (newNights_nodup fetch _ (step0Missing_nodup req a hreq))
  have hs : sortedByDate (mergedOnce req fetch a) := mergeArchive_sorted _ _
  have hex : ∃ r ∈ mergedOnce req fetch a, r.Total_Dur ≠ none := by
    by_contra hc
    push_neg at hc
    have herr := trimRun_err _ hc
    unfold runOnce trimArchive at h
    rw [herr] at h
    exact Option.noConfusion h
  have hAe : A = confirmedPrefix (mergedOnce req fetch a) := by
    unfold runOnce at h
    rw [trimArchive_eq _ hu hex] at h
    exact (Option.some_injective _ h).symm
  have hsub : List.Sublist (confirmedPrefix (mergedOnce req fetch a))
      (mergedOnce req fetch a) := by
    conv_rhs => rw [← confirmedPrefix_append_trailingNulls (mergedOnce req fetch a)]
    exact List.sublist_append_left _ _
  refine ⟨hAe, hu, hs, hex, ?_, ?_, ?_, ?_⟩
  · rw [hAe]
    exact confirmedPrefix_ne_nil _ hex
  · rw [hAe]
    exact confirmedPrefix_getLast _
  · rw [hAe]
    have hud : (datesOf (mergedOnce req fetch a)).Nodup := hu
    exact List.Nodup.sublist (hsub.map _) hud
  · rw [hAe]
    exact List.Pairwise.sublist hsub hs

theorem trimmed_date_null (req : List ℕ) (fetch : ℕ → Option SleepFields)
    (a A : List Night) (hreq : req.Nodup) (ha : uniqueDates a)
    (haS : sortedByDate a) (haL : ∀ x, a.getLast? = some x → x.Total_Dur ≠ none)
    (h : runOnce req fetch a = some A)
    (d : ℕ) (hd : d ∈ req) (hdA : d ∉ datesOf A) :
    (normalizeAt fetch d).Total_Dur = none ∧
    d ∈ datesOf (trailingNulls (mergedOnce req fetch a)) := by
  obtain ⟨hAe, hu, hs, hex, hAne, hAlast, huA, hsA⟩ :=
    runOnce_structure req fetch a A hreq ha h
  have hdM : d ∈ datesOf (mergedOnce req fetch a) := req_mem_mergedOnce req fetch a d hd
  have hdec := confirmedPrefix_append_trailingNulls (mergedOnce req fetch a)
  have hdT : d ∈ datesOf (trailingNulls (mergedOnce req fetch a)) := by
    have hsplit : datesOf (confirmedPrefix (mergedOnce req fetch a)) ++
        datesOf (trailingNulls (mergedOnce req fetch a)) =
        datesOf (mergedOnce req fetch a) := by
      rw [← datesOf_append, hdec]
    rw [← hsplit, List.mem_append] at hdM
    rcases hdM with h' | h'
    · rw [← hAe] at h'
      exact absurd h' hdA
    · exact h'
  obtain ⟨t, htT, htd⟩ := List.mem_map.mp hdT
  have htnull : t.Total_Dur = none := trailingNulls_null _ t htT
  have htM : t ∈ mergedOnce req fetch a := by
    rw [← hdec]
    exact List.mem_append.mpr (Or.inr htT)
  rcases (mem_mergedOnce req fetch a t).mp htM with hta | ⟨htb, _⟩
  · exfalso
    have hane : a ≠ [] := by
      rintro rfl
      exact (List.not_mem_nil t) hta
    have hLa : a.getLast hane ∈ a := List.getLast_mem hane
    have hLnn : (a.getLast hane).Total_Dur ≠ none :=
      haL (a.getLast hane) (List.getLast?_eq_getLast a hane)
    have hLM : a.getLast hane ∈ mergedOnce req fetch a :=
      (mem_mergedOnce req fetch a _).mpr (Or.inl hLa)
    have hLAT : a.getLast hane ∈ confirmedPrefix (mergedOnce req fetch a) ∨
        a.getLast hane ∈ trailingNulls (mergedOnce req fetch a) := by
      rw [← hdec] at hLM
      exact List.mem_append.mp hLM
    have hLA : a.getLast hane ∈ confirmedPrefix (mergedOnce req fetch a) := by
      rcases hLAT with h' | h'
      · exact h'
      · exact absurd (trailingNulls_null _ _ h') hLnn
    have hcross := confirmed_trailing_lt _ hu hs _ hLA t htT
    have hle := sorted_le_getLast a haS t hta (a.getLast hane)
      (List.getLast?_eq_getLast a hane)
    omega
  · obtain ⟨htm, hteq⟩ := mem_newNights_elim fetch _ t htb
    rw [htd] at hteq
    constructor
    · rw [← hteq]
      exact htnull
    · exact hdT

/-! ### Claim C3 -/

/-- C3: the claim asserts that every date of the requested range whose
chunk was fetched is, after one run, present in the archive (as data or
as a null placeholder) and never absent.  Counterexample: requested
range `{0, 1}`, provider has data for date 0 only.  The null placeholder
for date 1 is the most recent record after the merge, so the trailing
trim removes it and date 1 is absent from the persisted archive. -/
theorem c3_counterexample :
    (1 ∈ ([0, 1] : List ℕ)) ∧
    runOnce [0, 1] sampleFetch [] = some [nightOf 0 sampleFields] ∧
    1 ∉ datesOf [nightOf 0 sampleFields] := by
  refine ⟨by decide, by decide, by decide⟩

/-- C3 (amended): every requested date is present in the merged archive
**before** the trailing trim; a requested date absent from the persisted
archive is one whose normalized record has a null total duration — a
trailing unconfirmed night, removed so that it is re-requested on the
next run.  (Archive invariants: unique dates, sorted, last record
confirmed — all hold for any archive the pipeline itself persisted.) -/
theorem c3_gap_closure (req : List ℕ) (fetch : ℕ → Option SleepFields)
    (a A : List Night) (hreq : req.Nodup) (ha : uniqueDates a)
    (haS : sortedByDate a) (haL : ∀ x, a.getLast? = some x → x.Total_Dur ≠ none)
    (h : runOnce req fetch a = some A) (d : ℕ) (hd : d ∈ req) :
    d ∈ datesOf (mergedOnce req fetch a) ∧
    (d ∉ datesOf A → (normalizeAt fetch d).Total_Dur = none) :=
  ⟨req_mem_mergedOnce req fetch a d hd,
   fun hdA => (trimmed_date_null req fetch a A hreq ha haS haL h d hd hdA).1⟩

/-- Witness for `c3_gap_closure`: the run of `c3_counterexample`, at the
requested date 1. -/
theorem c3_gap_closure_witness :
    1 ∈ datesOf (mergedOnce [0, 1] sampleFetch []) ∧
    (1 ∉ datesOf [nightOf 0 sampleFields] →
      (normalizeAt sampleFetch 1).Total_Dur = none) :=
  c3_gap_closure [0, 1] sampleFetch [] [nightOf 0 sampleFields] (by decide) (by decide)
    List.sorted_nil (fun x hx => by simp at hx) (by decide) 1 (by decide)

/-! ### Claim C2 -/

theorem newSunDates_uptodate (sun_df : List SunRow) (complete : List ℕ)
    (hsun : ∀ d ∈ complete, ∃ r ∈ sun_df, r.Date = d) :
    newSunDates sun_df complete = [] := by
  unfold newSunDates
  split
  · rw [List.filter_eq_nil_iff]
    intro d hd
    obtain ⟨r, hr, hrd⟩ := hsun d hd
    have hany : sun_df.any (fun r => r.Date == d) = true :=
      List.any_eq_true.mpr ⟨r, hr, by simp [hrd]⟩
    simp [hany]
  · next h =>
    have hnil : sun_df = [] := by
      cases sun_df with
      | nil => rfl
      | cons x xs => simp at h
    subst hnil
    cases complete with
    | nil => rfl
    | cons c cs =>
      obtain ⟨r, hr, _⟩ := hsun c (List.mem_cons_self c cs)
      exact absurd hr (List.not_mem_nil r)

theorem step4Disk_uptodate (almanac : ℕ → Option SunTimes) (sun_df : List SunRow)
    (complete : List ℕ) (hsun : ∀ d ∈ complete, ∃ r ∈ sun_df, r.Date = d) :
    step4Disk almanac sun_df complete = sun_df := by
  unfold step4Disk
  rw [newSunDates_uptodate sun_df complete hsun]
  rfl

/-- C2: the claim asserts that on the second run the Gap Detector
"recomputes the missing set from the on-disk archive, finds it empty".
Counterexample: with requested range `{0, 1}` and provider data for
date 0 only, the first run trims the unconfirmed date 1 from the
archive, so the second run's Gap Detector computes the non-empty
missing set `[1]` (the trimmed date, deliberately re-requested). -/
theorem c2_counterexample :
    runOnce [0, 1] sampleFetch [] = some [nightOf 0 sampleFields] ∧
    step0Missing [0, 1] [nightOf 0 sampleFields] = [1] ∧
    step0Missing [0, 1] [nightOf 0 sampleFields] ≠ [] := by
  refine ⟨by decide, by decide, by decide⟩

/-- C2 (amended): the second run's Gap Detector need **not** find the
missing set empty — it recomputes the missing set from the persisted
archive and re-requests exactly the trailing unconfirmed nights the
first run trimmed — but with no new upstream data the second run still
reproduces the first run's persisted state: the re-fetched records are
unchanged and still unconfirmed, so the merge appends them past the
archive's confirmed tail and the trim removes them again, leaving the
primary archive identical; the description and event tables, fully
recomputed from that archive with the same legacy rows and calendar
inputs, are identical; and the solar archive already covers every date
of the derived dataset, so the Almanac Syncer finds nothing missing and
rewrites it unchanged.  (Archive invariants on the starting archive as
in `c3_gap_closure`.) -/
theorem c2_pipeline_idempotent (req : List ℕ) (fetch : ℕ → Option SleepFields)
    (a A : List Night) (hreq : req.Nodup) (ha : uniqueDates a)
    (haS : sortedByDate a) (haL : ∀ x, a.getLast? = some x → x.Total_Dur ≠ none)
    (h : runOnce req fetch a = some A)
    (almanac : ℕ → Option SunTimes) (sun_df : List SunRow) (complete : List ℕ)
    (hsun : ∀ d ∈ complete, ∃ r ∈ sun_df, r.Date = d) :
    runOnce req fetch A = some A ∧
    (∀ (holidays vacay : List ℕ) (yearOf : ℕ → ℕ) (ms3_df : List GarminRow),
      (runOnce req fetch A).map
          (fun A2 => deriveTables holidays vacay yearOf A2 ms3_df) =
        some (deriveTables holidays vacay yearOf A ms3_df)) ∧
    step4Disk almanac sun_df complete = sun_df := by
  have harch : runOnce req fetch A = some A := by
    obtain ⟨hAe, huM, hsM, hexM, hAne, hAlast, huA, hsA⟩ :=
      runOnce_structure req fetch a A hreq ha h
    have hb2 : ∀ r ∈ newNights fetch (step0Missing req A),
        r.Total_Dur = none ∧ r.Prev_Day ∉ datesOf A ∧
        r.Prev_Day ∈ datesOf (trailingNulls (mergedOnce req fetch a)) := by
      intro r hr
      obtain ⟨hrm, hreq'⟩ := mem_newNights_elim fetch _ r hr
      obtain ⟨hrd, hrdA⟩ := (mem_step0Missing req A r.Prev_Day).mp hrm
      obtain ⟨hnull, hdT⟩ := trimmed_date_null req fetch a A hreq ha haS haL h r.Prev_Day hrd hrdA
      refine ⟨?_, hrdA, hdT⟩
      rw [hreq']
      exact hnull
    have hcross : ∀ x ∈ A, ∀ y ∈ newNights fetch (step0Missing req A),
        x.Prev_Day < y.Prev_Day := by
      intro x hx y hy
      obtain ⟨_, _, hyT⟩ := hb2 y hy
      obtain ⟨t, htT, htd⟩ := List.mem_map.mp hyT
      have hxA : x ∈ confirmedPrefix (mergedOnce req fetch a) := by
        rw [← hAe]
        exact hx
      have hlt := confirmed_trailing_lt _ huM hsM x hxA t htT
      omega
    have hb2nodup : uniqueDates (newNights fetch (step0Missing req A)) :=
      newNights_nodup fetch _ (step0Missing_nodup req A hreq)
    have hfilter : (newNights fetch (step0Missing req A)).filter
        (fun r => !(A.any (fun n => n.Prev_Day == r.Prev_Day))) =
        newNights fetch (step0Missing req A) := by
      rw [List.filter_eq_self]
      intro r hr
      have hnot := (hb2 r hr).2.1
      simpa using (any_date_eq_false A r).mpr hnot
    have hM2perm : List.Perm (mergeArchive A (newNights fetch (step0Missing req A)))
        (A ++ List.insertionSort byDate (newNights fetch (step0Missing req A))) := by
      refine (mergeArchive_perm A _).trans ?_
      rw [hfilter]
      exact List.Perm.append_left A (List.perm_insertionSort byDate _).symm
    have hmemB2 : ∀ y ∈ List.insertionSort byDate (newNights fetch (step0Missing req A)),
        y ∈ newNights fetch (step0Missing req A) := by
      intro y hy
      exact (List.perm_insertionSort byDate _).mem_iff.mp hy
    have hABsorted : sortedByDate
        (A ++ List.insertionSort byDate (newNights fetch (step0Missing req A))) := by
      refine List.pairwise_append.mpr ⟨hsA, List.sorted_insertionSort byDate _, ?_⟩
      intro x hx y hy
      exact le_of_lt (hcross x hx y (hmemB2 y hy))
    have hM2 : mergeArchive A (newNights fetch (step0Missing req A)) =
        A ++ List.insertionSort byDate (newNights fetch (step0Missing req A)) :=
      sorted_nodup_ext _ _ hM2perm (mergeArchive_sorted A _) hABsorted
        (mergeArchive_uniqueDates A _ huA hb2nodup)
    have hB2null : ∀ r ∈ List.insertionSort byDate (newNights fetch (step0Missing req A)),
        r.Total_Dur = none := by
      intro r hr
      exact (hb2 r (hmemB2 r hr)).1
    have hdisj : ∀ x ∈ A, x.Prev_Day ∉
        datesOf (List.insertionSort byDate (newNights fetch (step0Missing req A))) := by
      intro x hx hmem
      obtain ⟨y, hy, hyd⟩ := List.mem_map.mp hmem
      have := hcross x hx y (hmemB2 y hy)
      omega
    show trimArchive (mergedOnce req fetch A) = some A
    have hMO : mergedOnce req fetch A = mergeArchive A (newNights fetch (step0Missing req A)) :=
      rfl
    rw [hMO, hM2]
    exact trimArchive_append A _ hAne hAlast hB2null hdisj
  refine ⟨harch, ?_, step4Disk_uptodate almanac sun_df complete hsun⟩
  intro holidays vacay yearOf ms3_df
  rw [harch, Option.map_some']

/-- Witness for `c2_pipeline_idempotent`: the first run of
`c2_counterexample` left the archive `[night 0]`; running again with the
same provider data re-requests date 1, gets nothing, and leaves the
archive, the recomputed derived tables and the solar table unchanged. -/
theorem c2_pipeline_idempotent_witness :
    runOnce [0, 1] sampleFetch [nightOf 0 sampleFields] = some [nightOf 0 sampleFields] ∧
    (runOnce [0, 1] sampleFetch [nightOf 0 sampleFields]).map
        (fun A2 => deriveTables [] [] (fun _ => 1970) A2 []) =
      some (deriveTables [] [] (fun _ => 1970) [nightOf 0 sampleFields] []) ∧
    step4Disk (fun _ => none) [mkSunRow 0 ⟨(7, 30), (19, 30)⟩] [0] =
      [mkSunRow 0 ⟨(7, 30), (19, 30)⟩] :=
  have h := c2_pipeline_idempotent [0, 1] sampleFetch [] [nightOf 0 sampleFields] (by decide)
    (by decide) List.sorted_nil (fun x hx => by simp at hx) (by decide)
    (fun _ => none) [mkSunRow 0 ⟨(7, 30), (19, 30)⟩] [0]
    (fun d hd => ⟨mkSunRow 0 ⟨(7, 30), (19, 30)⟩, List.mem_cons_self _ _, by
      rw [List.mem_singleton] at hd
      simp [mkSunRow, hd]⟩)
  ⟨h.1, h.2.1 [] [] (fun _ => 1970) [], h.2.2⟩
